import Mathlib

/-
Shallow embedding of the Ant Colony Optimization engine of
src/algorithms/aco.py (class AntColonyOptimization).

Modelling conventions:
- numpy float arithmetic is modelled over ℚ (exact rationals); in ℚ division
  by zero yields 0, while the source floats would produce inf/NaN (the spec
  flags zero distances as a latent defect and all claims below assume or
  imply positive distances on the paths that matter).
- The exponents alpha and beta are modelled as natural-number exponents
  (monoid powers); real-exponent float powers are outside the embedding.
- np.random.choice(cities, p=probs) is modelled by inverse-CDF sampling
  over the normalized probabilities, driven by an explicit stream of
  uniform draws (the rng : List ℚ argument).  Threading the stream
  explicitly makes the sole source of stochasticity an input, mirroring a
  fixed numpy seed.
- The distance matrix is kept as the raw List (List ℚ) the constructor
  receives (numpy array of rows); num_cities = number of rows, exactly as
  len(distance_matrix) in __init__.
- best_distance is initialized to float('inf'); modelled as ⊤ in WithTop ℚ.
-/

namespace ACOSpec

/-- State of the AntColonyOptimization object: the fields set in
`__init__` of src/algorithms/aco.py. -/
structure ACO where
  distanceMatrix : List (List ℚ)
  numCities : ℕ
  numAnts : ℕ
  alpha : ℕ
  beta : ℕ
  evaporationRate : ℚ
  Q : ℚ
  pheromones : ℕ → ℕ → ℚ
  bestTour : Option (List ℕ)
  bestDistance : WithTop ℚ
  history : List (WithTop ℚ)

/-- `AntColonyOptimization.__init__`: stores the parameters, sets
num_cities = len(distance_matrix), pheromones = np.ones((N, N)),
best_tour = None, best_distance = inf, history = [].  The source performs
no validation of any argument. -/
def mkACO (distance_matrix : List (List ℚ)) (num_ants : ℕ)
    (alpha beta : ℕ) (evaporation_rate Q : ℚ) : ACO :=
  { distanceMatrix := distance_matrix
    numCities := distance_matrix.length
    numAnts := num_ants
    alpha := alpha
    beta := beta
    evaporationRate := evaporation_rate
    Q := Q
    pheromones := fun _ _ => 1
    bestTour := none
    bestDistance := ⊤
    history := [] }

/-- Entry lookup self.distance_matrix[i][j] (in-range accesses only are
exercised by the claims; out of range defaults to 0 in the model). -/
def entryD (st : ACO) (i j : ℕ) : ℚ :=
  (st.distanceMatrix.getD i []).getD j 0

/-- The list of consecutive pairs (tour[i], tour[i+1]) of a tour. -/
def consecPairs (tour : List ℕ) : List (ℕ × ℕ) :=
  tour.zip tour.tail

/-- `calculate_distance`: sums distance_matrix[tour[i]][tour[i+1]] for
i in range(len(tour) - 1). -/
def calculate_distance (st : ACO) (tour : List ℕ) : ℚ :=
  ((consecPairs tour).map (fun p => entryD st p.1 p.2)).sum

/-- The candidate weight computed in `select_next_city`:
pheromones[current][city] ** alpha * (1.0 / distance_matrix[current][city]) ** beta. -/
def weight (st : ACO) (current city : ℕ) : ℚ :=
  st.pheromones current city ^ st.alpha * (1 / entryD st current city) ^ st.beta

/-- The `probabilities` list built in `select_next_city`: for city in
range(num_cities), keep (city, weight) when city is unvisited and is not
the end city. -/
def candidates (st : ACO) (current : ℕ) (visited : List ℕ) (end_city : ℕ) :
    List (ℕ × ℚ) :=
  (List.range st.numCities).filterMap (fun city =>
    if city ∉ visited ∧ city ≠ end_city then some (city, weight st current city)
    else none)

/-- Inverse-CDF (roulette-wheel) sampling over a weighted list: walk the
list subtracting weights from the draw; a draw inside the k-th probability
interval selects the k-th entry.  On the last entry the remaining draw is
accepted unconditionally, as np.random.choice always returns a member. -/
def roulette : List (ℕ × ℚ) → ℚ → ℕ
  | [], _ => 0
  | [(c, _)], _ => c
  | (c, w) :: p :: rest, r => if r < w then c else roulette (p :: rest) (r - w)

/-- `select_next_city`: build the candidate list; if it is empty return
end_city; otherwise normalize the weights to probabilities and sample with
np.random.choice, modelled as inverse-CDF sampling on the draw u. -/
def select_next_city (st : ACO) (current : ℕ) (visited : List ℕ)
    (end_city : ℕ) (u : ℚ) : ℕ :=
  let cands := candidates st current visited end_city
  if cands.isEmpty then end_city
  else
    let total := (cands.map Prod.snd).sum
    roulette (cands.map (fun p => (p.1, p.2 / total))) u

/-- One uniform draw from the explicit random stream. -/
def draw : List ℚ → ℚ × List ℚ
  | [] => (0, [])
  | u :: rest => (u, rest)

/-- The while-loop of `construct_solution`: while len(tour) < num_cities - 1,
select the next city, append it to tour, add it to visited, move there.
fuel counts the remaining loop iterations. -/
def constructLoop (st : ACO) (end_city : ℕ) :
    ℕ → List ℕ → List ℕ → ℕ → List ℚ → List ℕ × List ℚ
  | 0, tour, _, _, rng => (tour, rng)
  | fuel + 1, tour, visited, current, rng =>
      let p := draw rng
      let next := select_next_city st current visited end_city p.1
      constructLoop st end_city fuel (tour ++ [next]) (visited ++ [next]) next p.2

/-- `construct_solution`: tour = [start_city], visited = {start_city};
loop until the tour holds num_cities - 1 cities, then append end_city. -/
def construct_solution (st : ACO) (start_city end_city : ℕ) (rng : List ℚ) :
    List ℕ × List ℚ :=
  let r := constructLoop st end_city (st.numCities - 2)
    [start_city] [start_city] start_city rng
  (r.1 ++ [end_city], r.2)

/-- Variant of `select_next_city` that refuses (returns none) instead of
taking the empty-candidates fallback branch; used to state that the
fallback is never exercised inside the construction loop. -/
def select_next_city_checked (st : ACO) (current : ℕ) (visited : List ℕ)
    (end_city : ℕ) (u : ℚ) : Option ℕ :=
  let cands := candidates st current visited end_city
  if cands.isEmpty then none
  else
    let total := (cands.map Prod.snd).sum
    some (roulette (cands.map (fun p => (p.1, p.2 / total))) u)

/-- The construction loop run with the checked selection: returns none as
soon as a selection would hit the fallback branch. -/
def constructLoopChecked (st : ACO) (end_city : ℕ) :
    ℕ → List ℕ → List ℕ → ℕ → List ℚ → Option (List ℕ × List ℚ)
  | 0, tour, _, _, rng => some (tour, rng)
  | fuel + 1, tour, visited, current, rng =>
      match select_next_city_checked st current visited end_city (draw rng).1 with
      | none => none
      | some next =>
          constructLoopChecked st end_city fuel (tour ++ [next])
            (visited ++ [next]) next (draw rng).2

/-- `construct_solution` run with the checked selection. -/
def construct_solution_checked (st : ACO) (start_city end_city : ℕ)
    (rng : List ℚ) : Option (List ℕ × List ℚ) :=
  match constructLoopChecked st end_city (st.numCities - 2)
      [start_city] [start_city] start_city rng with
  | none => none
  | some r => some (r.1 ++ [end_city], r.2)

/-- Pointwise in-place update pheromones[a][b] += v. -/
def addAt (f : ℕ → ℕ → ℚ) (a b : ℕ) (v : ℚ) : ℕ → ℕ → ℚ :=
  fun i j => if i = a ∧ j = b then f i j + v else f i j

/-- The deposit loop body of `update_pheromones` for one tour: for each
consecutive pair, pheromones[tour[i]][tour[i+1]] += deposit and
pheromones[tour[i+1]][tour[i]] += deposit. -/
def depositTour (ph : ℕ → ℕ → ℚ) (tour : List ℕ) (dep : ℚ) : ℕ → ℕ → ℚ :=
  (consecPairs tour).foldl (fun f p => addAt (addAt f p.1 p.2 dep) p.2 p.1 dep) ph

/-- `update_pheromones`: evaporate every entry by (1 - evaporation_rate),
then for each (tour, distance) deposit Q / distance along the tour in both
directions.  Only the pheromones field is touched. -/
def update_pheromones (st : ACO) (all_tours : List (List ℕ × ℚ)) : ACO :=
  let evap : ℕ → ℕ → ℚ := fun i j => st.pheromones i j * (1 - st.evaporationRate)
  { st with pheromones :=
      all_tours.foldl (fun ph td => depositTour ph td.1 (st.Q / td.2)) evap }

/-- The per-ant loop of `run_iteration`: each ant constructs a solution,
its distance is computed, (tour, distance) is recorded, and the best
tour/distance are replaced when the new distance is strictly smaller.
Returns (all_tours, best_tour, best_distance, remaining rng). -/
def antLoop (st : ACO) (start_city end_city : ℕ) :
    ℕ → List (List ℕ × ℚ) → Option (List ℕ) → WithTop ℚ → List ℚ →
    List (List ℕ × ℚ) × Option (List ℕ) × WithTop ℚ × List ℚ
  | 0, tours, bt, bd, rng => (tours, bt, bd, rng)
  | n + 1, tours, bt, bd, rng =>
      let r := construct_solution st start_city end_city rng
      let d := calculate_distance st r.1
      if (d : WithTop ℚ) < bd then
        antLoop st start_city end_city n (tours ++ [(r.1, d)]) (some r.1) (d : WithTop ℚ) r.2
      else
        antLoop st start_city end_city n (tours ++ [(r.1, d)]) bt bd r.2

/-- `run_iteration`: run all ants (updating best tour/distance as they
finish), then update pheromones from this generation's (tour, distance)
list, append the best distance to history, and return the new state, the
remaining rng and the returned triple (best_tour, best_distance,
avg_distance).  The source performs no validation of start/end. -/
def run_iteration (st : ACO) (start_city end_city : ℕ) (rng : List ℚ) :
    ACO × List ℚ × (Option (List ℕ) × WithTop ℚ × ℚ) :=
  let r := antLoop st start_city end_city st.numAnts [] st.bestTour st.bestDistance rng
  let st1 := update_pheromones
    { st with bestTour := r.2.1, bestDistance := r.2.2.1 } r.1
  let st2 := { st1 with history := st1.history ++ [r.2.2.1] }
  let avg := (r.1.map Prod.snd).sum / (st.numAnts : ℚ)
  (st2, r.2.2.2, (r.2.1, r.2.2.1, avg))

/-- The external driver: k successive calls of run_iteration with a fixed
start/end pair, threading the engine state and the random stream. -/
def runK (start_city end_city : ℕ) : ℕ → ACO → List ℚ → ACO × List ℚ
  | 0, st, rng => (st, rng)
  | k + 1, st, rng =>
      let r := run_iteration st start_city end_city rng
      runK start_city end_city k r.1 r.2.1

/-- The per-edge deposit total of one generation, in closed form:
for each (tour, distance), Q / distance times the number of occurrences of
(i, j) or (j, i) among the tour's consecutive pairs. -/
def depositSum (Q : ℚ) (all_tours : List (List ℕ × ℚ)) (i j : ℕ) : ℚ :=
  (all_tours.map (fun td => (Q / td.2) *
    (((consecPairs td.1).count (i, j) : ℚ) + ((consecPairs td.1).count (j, i) : ℚ)))).sum

/-- A concrete 3-city engine used by witnesses and counterexamples. -/
def stW : ACO := mkACO [[0, 1, 2], [1, 0, 3], [2, 3, 0]] 1 1 1 (1/2) 100

lemma calculate_distance_eq_rangeSum (st : ACO) :
    ∀ tour : List ℕ, calculate_distance st tour =
      ((List.range (tour.length - 1)).map
        (fun i => entryD st (tour.getD i 0) (tour.getD (i + 1) 0))).sum := by
  intro tour
  induction tour with
  | nil => simp [calculate_distance, consecPairs]
  | cons a l ih =>
    cases l with
    | nil => simp [calculate_distance, consecPairs]
    | cons b t =>
      have hlhs : calculate_distance st (a :: b :: t)
          = entryD st a b + calculate_distance st (b :: t) := by
        simp [calculate_distance, consecPairs]
      rw [hlhs, ih]
      simp only [List.length_cons, Nat.add_sub_cancel, List.range_succ_eq_map,
        List.map_cons, List.map_map, List.sum_cons]
      congr 1

lemma addAt_apply (f : ℕ → ℕ → ℚ) (a b i j : ℕ) (v : ℚ) :
    addAt f a b v i j = f i j + if i = a ∧ j = b then v else 0 := by
  unfold addAt
  split <;> simp

lemma depositPairs_apply (dep : ℚ) :
    ∀ (l : List (ℕ × ℕ)) (ph : ℕ → ℕ → ℚ) (i j : ℕ),
      (l.foldl (fun f p => addAt (addAt f p.1 p.2 dep) p.2 p.1 dep) ph) i j
        = ph i j + dep * ((l.count (i, j) : ℚ) + (l.count (j, i) : ℚ)) := by
  intro l
  induction l with
  | nil =>
    intro ph i j
    simp
  | cons hd tl ih =>
    intro ph i j
    simp only [List.foldl_cons]
    rw [ih, addAt_apply, addAt_apply, List.count_cons, List.count_cons]
    have e1 : (i = hd.1 ∧ j = hd.2) ↔ ((i, j) = hd) := by
      rw [Prod.ext_iff]
    have e2 : (i = hd.2 ∧ j = hd.1) ↔ ((j, i) = hd) := by
      rw [Prod.ext_iff]
      exact and_comm
    rw [if_congr e1 rfl rfl, if_congr e2 rfl rfl]
    push_cast
    simp only [beq_iff_eq]
    by_cases d1 : (i, j) = hd <;> by_cases d2 : (j, i) = hd
    · rw [if_pos d1, if_pos d2, if_pos d1.symm, if_pos d2.symm]
      ring
    · rw [if_pos d1, if_neg d2, if_pos d1.symm, if_neg (fun h => d2 h.symm)]
      ring
    · rw [if_neg d1, if_pos d2, if_neg (fun h => d1 h.symm), if_pos d2.symm]
      ring
    · rw [if_neg d1, if_neg d2, if_neg (fun h => d1 h.symm),
        if_neg (fun h => d2 h.symm)]
      ring

lemma depositAll_apply (Q : ℚ) :
    ∀ (tours : List (List ℕ × ℚ)) (ph : ℕ → ℕ → ℚ) (i j : ℕ),
      (tours.foldl (fun f td => depositTour f td.1 (Q / td.2)) ph) i j
        = ph i j + depositSum Q tours i j := by
  intro tours
  induction tours with
  | nil =>
    intro ph i j
    simp [depositSum]
  | cons td tl ih =>
    intro ph i j
    simp only [List.foldl_cons]
    rw [ih]
    unfold depositTour
    rw [depositPairs_apply]
    simp only [depositSum, List.map_cons, List.sum_cons]
    ring

lemma roulette_mem :
    ∀ (l : List (ℕ × ℚ)) (r : ℚ), l ≠ [] → roulette l r ∈ l.map Prod.fst := by
  intro l
  induction l with
  | nil =>
    intro r h
    exact absurd rfl h
  | cons a tl ih =>
    intro r _
    obtain ⟨c, w⟩ := a
    cases tl with
    | nil => simp [roulette]
    | cons b tl2 =>
      obtain ⟨c2, w2⟩ := b
      by_cases h : r < w
      · simp [roulette, h]
      · have hmem := ih (r - w) (by simp)
        simp only [roulette, if_neg h, List.map_cons]
        exact List.mem_cons_of_mem _ (by simpa using hmem)

lemma mem_candidates_iff (st : ACO) (current : ℕ) (visited : List ℕ)
    (end_city : ℕ) (p : ℕ × ℚ) :
    p ∈ candidates st current visited end_city ↔
      p.1 < st.numCities ∧ p.1 ∉ visited ∧ p.1 ≠ end_city ∧
        p.2 = weight st current p.1 := by
  obtain ⟨pc, pw⟩ := p
  unfold candidates
  simp only [List.mem_filterMap, List.mem_range]
  constructor
  · rintro ⟨c, hc, hif⟩
    by_cases h : c ∉ visited ∧ c ≠ end_city
    · rw [if_pos h] at hif
      simp only [Option.some.injEq, Prod.mk.injEq] at hif
      obtain ⟨h1, h2⟩ := hif
      subst h1
      exact ⟨hc, h.1, h.2, h2.symm⟩
    · rw [if_neg h] at hif
      exact Option.noConfusion hif
  · rintro ⟨h1, h2, h3, h4⟩
    refine ⟨pc, h1, ?_⟩
    rw [if_pos ⟨h2, h3⟩, h4]

lemma candidates_ne_nil (st : ACO) (current : ℕ) (visited : List ℕ) (e : ℕ)
    (h : ∃ c, c < st.numCities ∧ c ∉ visited ∧ c ≠ e) :
    candidates st current visited e ≠ [] := by
  obtain ⟨c, hc1, hc2, hc3⟩ := h
  intro hnil
  have hm : (c, weight st current c) ∈ candidates st current visited e :=
    (mem_candidates_iff st current visited e (c, weight st current c)).2
      ⟨hc1, hc2, hc3, rfl⟩
  rw [hnil] at hm
  exact List.not_mem_nil _ hm

lemma select_next_city_mem (st : ACO) (current : ℕ) (visited : List ℕ)
    (e : ℕ) (u : ℚ) (h : candidates st current visited e ≠ []) :
    select_next_city st current visited e u < st.numCities ∧
      select_next_city st current visited e u ∉ visited ∧
      select_next_city st current visited e u ≠ e := by
  unfold select_next_city
  rw [if_neg (by simpa [List.isEmpty_iff] using h)]
  have hmem := roulette_mem
    ((candidates st current visited e).map
      (fun p => (p.1, p.2 / ((candidates st current visited e).map Prod.snd).sum)))
    u (by simpa using h)
  rw [List.map_map] at hmem
  have hfst : (Prod.fst ∘ fun p : ℕ × ℚ =>
      (p.1, p.2 / ((candidates st current visited e).map Prod.snd).sum)) = Prod.fst := by
    funext p
    rfl
  rw [hfst] at hmem
  obtain ⟨p, hp, he⟩ := List.mem_map.1 hmem
  have hc := (mem_candidates_iff st current visited e p).1 hp
  rw [← he]
  exact ⟨hc.1, hc.2.1, hc.2.2.1⟩

lemma select_next_city_checked_of_ne_nil (st : ACO) (current : ℕ)
    (visited : List ℕ) (e : ℕ) (u : ℚ)
    (h : candidates st current visited e ≠ []) :
    select_next_city_checked st current visited e u =
      some (select_next_city st current visited e u) := by
  unfold select_next_city_checked select_next_city
  rw [if_neg (by simpa [List.isEmpty_iff] using h),
    if_neg (by simpa [List.isEmpty_iff] using h)]

lemma exists_unvisited (N : ℕ) (visited : List ℕ) (e : ℕ)
    (hlen : visited.length + 1 < N) :
    ∃ c, c < N ∧ c ∉ visited ∧ c ≠ e := by
  by_contra hc
  push_neg at hc
  have hsub : Finset.range N ⊆ (e :: visited).toFinset := by
    intro c hcr
    rw [Finset.mem_range] at hcr
    by_cases hv : c ∈ visited
    · simp [List.mem_toFinset, hv]
    · have hce := hc c hcr hv
      simp [hce]
  have h1 := Finset.card_le_card hsub
  rw [Finset.card_range] at h1
  have h2 := (e :: visited).toFinset_card_le
  simp only [List.length_cons] at h2
  omega

lemma constructLoop_spec (st : ACO) (e : ℕ) :
    ∀ (fuel : ℕ) (tour : List ℕ) (current : ℕ) (rng : List ℚ),
      tour ≠ [] → tour.Nodup → (∀ c ∈ tour, c < st.numCities) → e ∉ tour →
      tour.length + fuel + 1 ≤ st.numCities →
      (constructLoop st e fuel tour tour current rng).1.length = tour.length + fuel ∧
      (constructLoop st e fuel tour tour current rng).1.Nodup ∧
      (∀ c ∈ (constructLoop st e fuel tour tour current rng).1, c < st.numCities) ∧
      e ∉ (constructLoop st e fuel tour tour current rng).1 ∧
      (constructLoop st e fuel tour tour current rng).1.head? = tour.head? ∧
      constructLoopChecked st e fuel tour tour current rng =
        some (constructLoop st e fuel tour tour current rng) := by
  intro fuel
  induction fuel with
  | zero =>
    intro tour current rng h1 h2 h3 h4 h6
    refine ⟨by simp [constructLoop], by simpa [constructLoop] using h2,
      by simpa [constructLoop] using h3, by simpa [constructLoop] using h4,
      by simp [constructLoop], by simp [constructLoop, constructLoopChecked]⟩
  | succ n ih =>
    intro tour current rng h1 h2 h3 h4 h6
    have hne : candidates st current tour e ≠ [] :=
      candidates_ne_nil st current tour e
        (exists_unvisited st.numCities tour e (by omega))
    have hmem := select_next_city_mem st current tour e (draw rng).1 hne
    have hstep : constructLoop st e (n + 1) tour tour current rng
        = constructLoop st e n
            (tour ++ [select_next_city st current tour e (draw rng).1])
            (tour ++ [select_next_city st current tour e (draw rng).1])
            (select_next_city st current tour e (draw rng).1) (draw rng).2 := by
      rfl
    have hstepc : constructLoopChecked st e (n + 1) tour tour current rng
        = constructLoopChecked st e n
            (tour ++ [select_next_city st current tour e (draw rng).1])
            (tour ++ [select_next_city st current tour e (draw rng).1])
            (select_next_city st current tour e (draw rng).1) (draw rng).2 := by
      show (match select_next_city_checked st current tour e (draw rng).1 with
        | none => none
        | some next => constructLoopChecked st e n (tour ++ [next])
            (tour ++ [next]) next (draw rng).2) = _
      rw [select_next_city_checked_of_ne_nil st current tour e (draw rng).1 hne]
    set next := select_next_city st current tour e (draw rng).1 with hnextDef
    have hrec := ih (tour ++ [next]) next (draw rng).2
      (by simp)
      (by
        rw [List.nodup_append]
        exact ⟨h2, List.nodup_singleton _, by simpa using hmem.2.1⟩)
      (by
        intro c hc
        rcases List.mem_append.1 hc with hcl | hcr
        · exact h3 c hcl
        · rw [List.mem_singleton.1 hcr]
          exact hmem.1)
      (by
        intro hcontra
        rcases List.mem_append.1 hcontra with hcl | hcr
        · exact h4 hcl
        · exact hmem.2.2 (List.mem_singleton.1 hcr).symm)
      (by
        rw [List.length_append, List.length_singleton]
        omega)
    rw [hstep, hstepc]
    refine ⟨?_, hrec.2.1, hrec.2.2.1, hrec.2.2.2.1, ?_, hrec.2.2.2.2.2⟩
    · rw [hrec.1, List.length_append, List.length_singleton]
      omega
    · rw [hrec.2.2.2.2.1]
      exact List.head?_append_of_ne_nil _ h1

lemma construct_solution_spec (st : ACO) (s e : ℕ) (rng : List ℚ)
    (hs : s < st.numCities) (he : e < st.numCities) (hne : s ≠ e) :
    (construct_solution st s e rng).1.Perm (List.range st.numCities) ∧
    (construct_solution st s e rng).1.head? = some s ∧
    (construct_solution st s e rng).1.getLast? = some e ∧
    construct_solution_checked st s e rng = some (construct_solution st s e rng) := by
  have hN : 2 ≤ st.numCities := by omega
  have h := constructLoop_spec st e (st.numCities - 2) [s] s rng
    (by simp) (List.nodup_singleton s)
    (by simpa using hs)
    (by simpa using fun hse => hne hse.symm)
    (by simp; omega)
  obtain ⟨hlen, hnd, hbound, hnotE, hhead, hchecked⟩ := h
  have hTne : (constructLoop st e (st.numCities - 2) [s] [s] s rng).1 ≠ [] := by
    intro hnil
    rw [hnil] at hlen
    simp at hlen
    omega
  have htour : (construct_solution st s e rng).1
      = (constructLoop st e (st.numCities - 2) [s] [s] s rng).1 ++ [e] := rfl
  have hndFull : ((constructLoop st e (st.numCities - 2) [s] [s] s rng).1 ++ [e]).Nodup := by
    rw [List.nodup_append]
    exact ⟨hnd, List.nodup_singleton _, by simpa using hnotE⟩
  have hperm : (construct_solution st s e rng).1.Perm (List.range st.numCities) := by
    rw [htour]
    have hsubset : (constructLoop st e (st.numCities - 2) [s] [s] s rng).1 ++ [e]
        ⊆ List.range st.numCities := by
      intro c hc
      rcases List.mem_append.1 hc with hcl | hcr
      · exact List.mem_range.2 (hbound c hcl)
      · rw [List.mem_singleton.1 hcr]
        exact List.mem_range.2 he
    have hsp := List.subperm_of_subset hndFull hsubset
    refine hsp.perm_of_length_le ?_
    rw [List.length_append, List.length_singleton, hlen, List.length_range,
      List.length_singleton]
    omega
  refine ⟨hperm, ?_, ?_, ?_⟩
  · rw [htour, List.head?_append_of_ne_nil _ hTne, hhead]
    rfl
  · rw [htour, List.getLast?_concat]
  · show (match constructLoopChecked st e (st.numCities - 2) [s] [s] s rng with
      | none => none
      | some r => some (r.1 ++ [e], r.2)) = _
    rw [hchecked]
    rfl

/-- C1: for valid indices start ≠ end below numCities, every tour returned
by construct_solution is a permutation of exactly the numCities city
indices (hence no index appears twice), with first element start and last
element end. -/
theorem C1_construct_solution_is_permutation (st : ACO) (s e : ℕ) (rng : List ℚ)
    (hs : s < st.numCities) (he : e < st.numCities) (hne : s ≠ e) :
    (construct_solution st s e rng).1.Perm (List.range st.numCities) ∧
    (construct_solution st s e rng).1.head? = some s ∧
    (construct_solution st s e rng).1.getLast? = some e := by
  have h := construct_solution_spec st s e rng hs he hne
  exact ⟨h.1, h.2.1, h.2.2.1⟩

/-- C1 witness: on the concrete 3-city engine stW with start 0, end 2 and
draw stream [0], the constructed tour is a permutation of range 3 with the
required endpoints. -/
theorem C1_construct_solution_is_permutation_witness :
    (0 < stW.numCities ∧ 2 < stW.numCities ∧ (0 : ℕ) ≠ 2) ∧
    ((construct_solution stW 0 2 [0]).1.Perm (List.range stW.numCities) ∧
      (construct_solution stW 0 2 [0]).1.head? = some 0 ∧
      (construct_solution stW 0 2 [0]).1.getLast? = some 2) :=
  ⟨⟨by decide, by decide, by decide⟩,
    C1_construct_solution_is_permutation stW 0 2 [0]
      (by decide) (by decide) (by decide)⟩

/-- C10: for valid start ≠ end, the construction loop never exercises the
empty-candidates fallback of select_next_city (the checked construction,
which refuses instead of falling back, returns the same tour), and the end
city appears exactly once, in the last position. -/
theorem C10_fallback_never_taken (st : ACO) (s e : ℕ) (rng : List ℚ)
    (hs : s < st.numCities) (he : e < st.numCities) (hne : s ≠ e) :
    construct_solution_checked st s e rng = some (construct_solution st s e rng) ∧
    (construct_solution st s e rng).1.count e = 1 ∧
    (construct_solution st s e rng).1.getLast? = some e := by
  have h := construct_solution_spec st s e rng hs he hne
  refine ⟨h.2.2.2, ?_, h.2.2.1⟩
  rw [h.1.count_eq]
  exact List.count_eq_one_of_mem (List.nodup_range st.numCities)
    (List.mem_range.2 he)

/-- C10 witness: on the concrete engine stW with start 0, end 2 and draw
stream [1/3], the checked construction succeeds and the end city occurs
exactly once, last. -/
theorem C10_fallback_never_taken_witness :
    (0 < stW.numCities ∧ 2 < stW.numCities ∧ (0 : ℕ) ≠ 2) ∧
    (construct_solution_checked stW 0 2 [1/3]
        = some (construct_solution stW 0 2 [1/3]) ∧
      (construct_solution stW 0 2 [1/3]).1.count 2 = 1 ∧
      (construct_solution stW 0 2 [1/3]).1.getLast? = some 2) :=
  ⟨⟨by decide, by decide, by decide⟩,
    C10_fallback_never_taken stW 0 2 [1/3] (by decide) (by decide) (by decide)⟩

/-- C8: calculate_distance of a tour of length ≥ 2 is the sum of
distance_matrix[tour[i]][tour[i+1]] over consecutive index pairs, and a
tour of length 1 has distance 0. -/
theorem C8_calculate_distance (st : ACO) (tour : List ℕ) :
    (2 ≤ tour.length →
      calculate_distance st tour =
        ((List.range (tour.length - 1)).map
          (fun i => entryD st (tour.getD i 0) (tour.getD (i + 1) 0))).sum) ∧
    (tour.length = 1 → calculate_distance st tour = 0) := by
  constructor
  · intro _
    exact calculate_distance_eq_rangeSum st tour
  · intro h1
    match tour, h1 with
    | [a], _ => simp [calculate_distance, consecPairs]

/-- C8 witness: the two parts of C8_calculate_distance evaluated on the
concrete engine stW, at a length-3 tour and at a length-1 tour. -/
theorem C8_calculate_distance_witness :
    (2 ≤ ([0, 1, 2] : List ℕ).length ∧
      calculate_distance stW [0, 1, 2] =
        ((List.range (([0, 1, 2] : List ℕ).length - 1)).map
          (fun i => entryD stW (([0, 1, 2] : List ℕ).getD i 0)
            (([0, 1, 2] : List ℕ).getD (i + 1) 0))).sum) ∧
    (([2] : List ℕ).length = 1 ∧ calculate_distance stW [2] = 0) :=
  ⟨⟨by decide, (C8_calculate_distance stW [0, 1, 2]).1 (by decide)⟩,
   ⟨rfl, (C8_calculate_distance stW [2]).2 rfl⟩⟩

lemma roulette_interval :
    ∀ (l : List (ℕ × ℚ)), (∀ p ∈ l, 0 ≤ p.2) →
      ∀ (k : ℕ) (hk : k < l.length) (r : ℚ),
        ((l.take k).map Prod.snd).sum ≤ r →
        r < ((l.take (k + 1)).map Prod.snd).sum →
        roulette l r = (l.get ⟨k, hk⟩).1 := by
  intro l
  induction l with
  | nil =>
    intro _ k hk
    exact absurd hk (by simp)
  | cons a tl ih =>
    intro hw k hk r hlo hhi
    obtain ⟨c, w⟩ := a
    cases k with
    | zero =>
      simp only [List.take_succ_cons, List.take_zero, List.map_cons,
        List.map_nil, List.sum_cons, List.sum_nil, add_zero] at hhi
      cases tl with
      | nil => simp [roulette]
      | cons b tl2 =>
        obtain ⟨c2, w2⟩ := b
        simp [roulette, hhi]
    | succ k2 =>
      cases tl with
      | nil => simp at hk
      | cons b tl2 =>
        obtain ⟨c2, w2⟩ := b
        simp only [List.take_succ_cons, List.map_cons, List.sum_cons] at hlo hhi
        have hS : 0 ≤ ((((c2, w2) :: tl2).take k2).map Prod.snd).sum := by
          apply List.sum_nonneg
          intro x hx
          obtain ⟨p, hp, hpx⟩ := List.mem_map.1 hx
          rw [← hpx]
          exact hw p (List.mem_cons_of_mem _ (List.mem_of_mem_take hp))
        have hnotlt : ¬ r < w := by
          push_neg
          linarith
        simp only [roulette, if_neg hnotlt]
        exact ih (fun p hp => hw p (List.mem_cons_of_mem _ hp)) k2
          (by simpa using hk) (r - w) (by linarith)
          (by
            simp only [List.take_succ_cons, List.map_cons, List.sum_cons]
            linarith)

lemma sum_map_snd_div (l : List (ℕ × ℚ)) (T : ℚ) :
    ((l.map (fun p : ℕ × ℚ => (p.1, p.2 / T))).map Prod.snd).sum
      = ((l.map Prod.snd).sum) / T := by
  induction l with
  | nil => simp
  | cons a tl ih =>
    simp only [List.map_cons, List.sum_cons, add_div]
    rw [ih]

/-- C7: the candidate weight of every unvisited non-end city below
numCities is pheromones[current][c]^alpha * (1/distance[current][c])^beta;
with no candidate the end city is returned deterministically; otherwise
the draw u selects candidate k exactly when u lies in the k-th interval of
the cumulative normalized weights (the weights divided by their sum). -/
theorem C7_select_next_city (st : ACO) (current : ℕ) (visited : List ℕ)
    (e : ℕ) (u : ℚ) :
    (∀ c, c < st.numCities → c ∉ visited → c ≠ e →
      (c, st.pheromones current c ^ st.alpha * (1 / entryD st current c) ^ st.beta)
        ∈ candidates st current visited e) ∧
    (candidates st current visited e = [] →
      select_next_city st current visited e u = e) ∧
    ((∀ p ∈ candidates st current visited e, 0 ≤ p.2) →
      0 < ((candidates st current visited e).map Prod.snd).sum →
      ∀ (k : ℕ) (hk : k < (candidates st current visited e).length),
        (((candidates st current visited e).take k).map Prod.snd).sum
            / ((candidates st current visited e).map Prod.snd).sum ≤ u →
        u < (((candidates st current visited e).take (k + 1)).map Prod.snd).sum
            / ((candidates st current visited e).map Prod.snd).sum →
        select_next_city st current visited e u
          = ((candidates st current visited e).get ⟨k, hk⟩).1) := by
  refine ⟨?_, ?_, ?_⟩
  · intro c h1 h2 h3
    exact (mem_candidates_iff st current visited e
      (c, st.pheromones current c ^ st.alpha * (1 / entryD st current c) ^ st.beta)).2
      ⟨h1, h2, h3, rfl⟩
  · intro hnil
    unfold select_next_city
    rw [if_pos (by simp [hnil])]
  · intro hw hT k hk hlo hhi
    have hne : candidates st current visited e ≠ [] := by
      intro hnil
      rw [hnil] at hk
      exact absurd hk (by simp)
    unfold select_next_city
    rw [if_neg (by simpa [List.isEmpty_iff] using hne)]
    have hk2 : k < ((candidates st current visited e).map
        (fun p => (p.1, p.2 / ((candidates st current visited e).map Prod.snd).sum))).length := by
      simpa using hk
    rw [roulette_interval _ ?_ k hk2 u ?_ ?_]
    · rw [List.get_map]
    · intro p hp
      obtain ⟨q, hq, hqp⟩ := List.mem_map.1 hp
      rw [← hqp]
      exact div_nonneg (hw q hq) (le_of_lt hT)
    · rw [← List.map_take, sum_map_snd_div]
      exact hlo
    · rw [← List.map_take, sum_map_snd_div]
      exact hhi

/-- C7 witness: on the concrete engine stW from city 0 with city 0 visited
and end city 2, the weights are nonnegative with positive sum, and the
draw u = 0 selects the sole candidate, city 1. -/
theorem C7_select_next_city_witness :
    ((∀ p ∈ candidates stW 0 [0] 2, 0 ≤ p.2) ∧
      0 < ((candidates stW 0 [0] 2).map Prod.snd).sum) ∧
    select_next_city stW 0 [0] 2 0 = 1 := by
  have hq : ∀ p ∈ candidates stW 0 [0] 2, 0 ≤ p.2 := by
    simp [candidates, weight, entryD, stW, mkACO, List.range_succ]
  have hT : (0 : ℚ) < ((candidates stW 0 [0] 2).map Prod.snd).sum := by
    simp [candidates, weight, entryD, stW, mkACO, List.range_succ]
  have hk : 0 < (candidates stW 0 [0] 2).length := by
    simp [candidates, weight, entryD, stW, mkACO, List.range_succ]
  refine ⟨⟨hq, hT⟩, ?_⟩
  have h := (C7_select_next_city stW 0 [0] 2 0).2.2 hq hT 0 hk
    (by simp)
    (by simp [candidates, weight, entryD, stW, mkACO, List.range_succ])
  refine h.trans ?_
  simp [candidates, weight, entryD, stW, mkACO, List.range_succ]

/-- C6: update_pheromones first multiplies every entry by
(1 - evaporation_rate), then adds Q / distance for every occurrence of the
edge in either direction among each tour's consecutive pairs, and changes
no other field of the engine. -/
theorem C6_update_pheromones (st : ACO) (all_tours : List (List ℕ × ℚ)) :
    (∀ i j, (update_pheromones st all_tours).pheromones i j =
      st.pheromones i j * (1 - st.evaporationRate) + depositSum st.Q all_tours i j) ∧
    (update_pheromones st all_tours).distanceMatrix = st.distanceMatrix ∧
    (update_pheromones st all_tours).numCities = st.numCities ∧
    (update_pheromones st all_tours).numAnts = st.numAnts ∧
    (update_pheromones st all_tours).alpha = st.alpha ∧
    (update_pheromones st all_tours).beta = st.beta ∧
    (update_pheromones st all_tours).evaporationRate = st.evaporationRate ∧
    (update_pheromones st all_tours).Q = st.Q ∧
    (update_pheromones st all_tours).bestTour = st.bestTour ∧
    (update_pheromones st all_tours).bestDistance = st.bestDistance ∧
    (update_pheromones st all_tours).history = st.history := by
  refine ⟨?_, rfl, rfl, rfl, rfl, rfl, rfl, rfl, rfl, rfl, rfl⟩
  intro i j
  unfold update_pheromones
  simp only
  rw [depositAll_apply]

lemma antLoop_succ (st : ACO) (s e : ℕ) (n : ℕ) (tours : List (List ℕ × ℚ))
    (bt : Option (List ℕ)) (bd : WithTop ℚ) (rng : List ℚ) :
    antLoop st s e (n + 1) tours bt bd rng =
      if ((calculate_distance st (construct_solution st s e rng).1 : ℚ) : WithTop ℚ) < bd
      then antLoop st s e n
        (tours ++ [((construct_solution st s e rng).1,
          calculate_distance st (construct_solution st s e rng).1)])
        (some (construct_solution st s e rng).1)
        ((calculate_distance st (construct_solution st s e rng).1 : ℚ) : WithTop ℚ)
        (construct_solution st s e rng).2
      else antLoop st s e n
        (tours ++ [((construct_solution st s e rng).1,
          calculate_distance st (construct_solution st s e rng).1)])
        bt bd (construct_solution st s e rng).2 := rfl

lemma antLoop_best_le (st : ACO) (s e : ℕ) :
    ∀ (n : ℕ) (tours : List (List ℕ × ℚ)) (bt : Option (List ℕ))
      (bd : WithTop ℚ) (rng : List ℚ),
      (antLoop st s e n tours bt bd rng).2.2.1 ≤ bd := by
  intro n
  induction n with
  | zero =>
    intro tours bt bd rng
    exact le_rfl
  | succ n ih =>
    intro tours bt bd rng
    rw [antLoop_succ]
    by_cases h : ((calculate_distance st (construct_solution st s e rng).1 : ℚ)
        : WithTop ℚ) < bd
    · rw [if_pos h]
      exact le_trans (ih _ _ _ _) (le_of_lt h)
    · rw [if_neg h]
      exact ih _ _ _ _

lemma antLoop_tours_append (st : ACO) (s e : ℕ) :
    ∀ (n : ℕ) (tours : List (List ℕ × ℚ)) (bt : Option (List ℕ))
      (bd : WithTop ℚ) (rng : List ℚ),
      ∃ ext, (antLoop st s e n tours bt bd rng).1 = tours ++ ext := by
  intro n
  induction n with
  | zero =>
    intro tours bt bd rng
    exact ⟨[], by simp [antLoop]⟩
  | succ n ih =>
    intro tours bt bd rng
    rw [antLoop_succ]
    by_cases h : ((calculate_distance st (construct_solution st s e rng).1 : ℚ)
        : WithTop ℚ) < bd
    · rw [if_pos h]
      obtain ⟨ext, hext⟩ := ih
        (tours ++ [((construct_solution st s e rng).1,
          calculate_distance st (construct_solution st s e rng).1)])
        (some (construct_solution st s e rng).1)
        ((calculate_distance st (construct_solution st s e rng).1 : ℚ) : WithTop ℚ)
        (construct_solution st s e rng).2
      exact ⟨((construct_solution st s e rng).1,
        calculate_distance st (construct_solution st s e rng).1) :: ext,
        by rw [hext, List.append_assoc]; rfl⟩
    · rw [if_neg h]
      obtain ⟨ext, hext⟩ := ih
        (tours ++ [((construct_solution st s e rng).1,
          calculate_distance st (construct_solution st s e rng).1)])
        bt bd (construct_solution st s e rng).2
      exact ⟨((construct_solution st s e rng).1,
        calculate_distance st (construct_solution st s e rng).1) :: ext,
        by rw [hext, List.append_assoc]; rfl⟩

lemma antLoop_strict (st : ACO) (s e : ℕ) :
    ∀ (n : ℕ) (tours : List (List ℕ × ℚ)) (bt : Option (List ℕ))
      (bd : WithTop ℚ) (rng : List ℚ),
      (antLoop st s e n tours bt bd rng).2.2.1 < bd →
      ∃ td ∈ (antLoop st s e n tours bt bd rng).1, (td.2 : WithTop ℚ) < bd := by
  intro n
  induction n with
  | zero =>
    intro tours bt bd rng h
    exact absurd h (lt_irrefl bd)
  | succ n ih =>
    intro tours bt bd rng h
    rw [antLoop_succ] at h ⊢
    by_cases hlt : ((calculate_distance st (construct_solution st s e rng).1 : ℚ)
        : WithTop ℚ) < bd
    · rw [if_pos hlt] at h ⊢
      obtain ⟨ext, hext⟩ := antLoop_tours_append st s e n
        (tours ++ [((construct_solution st s e rng).1,
          calculate_distance st (construct_solution st s e rng).1)])
        (some (construct_solution st s e rng).1)
        ((calculate_distance st (construct_solution st s e rng).1 : ℚ) : WithTop ℚ)
        (construct_solution st s e rng).2
      refine ⟨((construct_solution st s e rng).1,
        calculate_distance st (construct_solution st s e rng).1), ?_, hlt⟩
      rw [hext]
      simp
    · rw [if_neg hlt] at h ⊢
      exact ih _ _ _ _ h

lemma run_iteration_state (st : ACO) (s e : ℕ) (rng : List ℚ) :
    (run_iteration st s e rng).1.bestDistance
        = (antLoop st s e st.numAnts [] st.bestTour st.bestDistance rng).2.2.1 ∧
    (run_iteration st s e rng).1.history
        = st.history
          ++ [(antLoop st s e st.numAnts [] st.bestTour st.bestDistance rng).2.2.1] ∧
    (run_iteration st s e rng).1.distanceMatrix = st.distanceMatrix ∧
    (run_iteration st s e rng).1.numCities = st.numCities ∧
    (run_iteration st s e rng).1.numAnts = st.numAnts ∧
    (run_iteration st s e rng).1.alpha = st.alpha ∧
    (run_iteration st s e rng).1.beta = st.beta ∧
    (run_iteration st s e rng).1.evaporationRate = st.evaporationRate ∧
    (run_iteration st s e rng).1.Q = st.Q :=
  ⟨rfl, rfl, rfl, rfl, rfl, rfl, rfl, rfl, rfl⟩

lemma runK_spec (s e : ℕ) :
    ∀ (k : ℕ) (st : ACO) (rng : List ℚ),
      ∃ ext : List (WithTop ℚ),
        (runK s e k st rng).1.history = st.history ++ ext ∧
        ext.length = k ∧
        List.Chain (fun x y => y ≤ x) st.bestDistance ext ∧
        (runK s e k st rng).1.bestDistance
          = (st.bestDistance :: ext).getLast (List.cons_ne_nil _ _) := by
  intro k
  induction k with
  | zero =>
    intro st rng
    exact ⟨[], by simp [runK], rfl, List.Chain.nil, rfl⟩
  | succ n ih =>
    intro st rng
    obtain ⟨ext1, h1, h2, h3, h4⟩ :=
      ih (run_iteration st s e rng).1 (run_iteration st s e rng).2.1
    have hbd : (run_iteration st s e rng).1.bestDistance ≤ st.bestDistance := by
      rw [(run_iteration_state st s e rng).1]
      exact antLoop_best_le st s e st.numAnts [] st.bestTour st.bestDistance rng
    have hrunk : runK s e (n + 1) st rng
        = runK s e n (run_iteration st s e rng).1 (run_iteration st s e rng).2.1 := rfl
    refine ⟨(run_iteration st s e rng).1.bestDistance :: ext1, ?_, ?_, ?_, ?_⟩
    · rw [hrunk, h1, (run_iteration_state st s e rng).2.1]
      simp only [List.append_assoc, List.singleton_append]
      rw [(run_iteration_state st s e rng).1]
    · simp [h2]
    · exact List.Chain.cons hbd h3
    · rw [hrunk, h4]
      exact (List.getLast_cons (List.cons_ne_nil _ _)).symm

lemma chain_ge_getD :
    ∀ (l : List (WithTop ℚ)) (b : WithTop ℚ),
      List.Chain (fun x y => y ≤ x) b l →
      ∀ i, i + 1 < l.length → l.getD (i + 1) ⊤ ≤ l.getD i ⊤ := by
  intro l
  induction l with
  | nil =>
    intro b _ i hi
    simp at hi
  | cons c tl ih =>
    intro b hch i hi
    cases hch with
    | cons hbc htl =>
      cases i with
      | zero =>
        cases tl with
        | nil => simp at hi
        | cons d tl2 =>
          cases htl with
          | cons hcd _ => simpa using hcd
      | succ i2 =>
        have hrec := ih c htl i2 (by simpa using hi)
        simpa using hrec

/-- C2: one run_iteration call never increases bestDistance; k calls from
a fresh engine leave exactly k history entries, consecutive entries are
non-increasing, and bestDistance strictly decreases only when some ant
tour of the generation is strictly shorter than the previous best. -/
theorem C2_best_distance_monotone (st st0 : ACO) (s e : ℕ)
    (rng rng0 : List ℚ) (k : ℕ) (h0 : st0.history = []) :
    ((run_iteration st s e rng).1.bestDistance ≤ st.bestDistance) ∧
    ((runK s e k st0 rng0).1.history.length = k) ∧
    (∀ i, i + 1 < k →
      (runK s e k st0 rng0).1.history.getD (i + 1) ⊤
        ≤ (runK s e k st0 rng0).1.history.getD i ⊤) ∧
    ((run_iteration st s e rng).1.bestDistance < st.bestDistance →
      ∃ td ∈ (antLoop st s e st.numAnts [] st.bestTour st.bestDistance rng).1,
        (td.2 : WithTop ℚ) < st.bestDistance) := by
  obtain ⟨ext, he1, he2, he3, he4⟩ := runK_spec s e k st0 rng0
  refine ⟨?_, ?_, ?_, ?_⟩
  · rw [(run_iteration_state st s e rng).1]
    exact antLoop_best_le st s e st.numAnts [] st.bestTour st.bestDistance rng
  · rw [he1, h0]
    simpa using he2
  · intro i hi
    rw [he1, h0, List.nil_append]
    exact chain_ge_getD ext st0.bestDistance he3 i (by rw [he2]; exact hi)
  · intro hlt
    rw [(run_iteration_state st s e rng).1] at hlt
    exact antLoop_strict st s e st.numAnts [] st.bestTour st.bestDistance rng hlt

/-- C2 witness: the conjunction of C2_best_distance_monotone instantiated
on the fresh concrete engine stW, two generations, start 0 and end 2. -/
theorem C2_best_distance_monotone_witness :
    stW.history = [] ∧
    (((run_iteration stW 0 2 [0]).1.bestDistance ≤ stW.bestDistance) ∧
      ((runK 0 2 2 stW [0, 0]).1.history.length = 2) ∧
      (∀ i, i + 1 < 2 →
        (runK 0 2 2 stW [0, 0]).1.history.getD (i + 1) ⊤
          ≤ (runK 0 2 2 stW [0, 0]).1.history.getD i ⊤) ∧
      ((run_iteration stW 0 2 [0]).1.bestDistance < stW.bestDistance →
        ∃ td ∈ (antLoop stW 0 2 stW.numAnts [] stW.bestTour stW.bestDistance [0]).1,
          (td.2 : WithTop ℚ) < stW.bestDistance)) :=
  ⟨rfl, C2_best_distance_monotone stW stW 0 2 [0] [0, 0] 2 rfl⟩

/-- C4 (amended): run_iteration performs no input validation; in
particular a call with start == end does not fail with InvalidInput: it
completes normally and appends exactly one entry to history, so the engine
state is mutated rather than left unchanged. -/
theorem C4_run_iteration_no_validation (st : ACO) (s : ℕ) (rng : List ℚ) :
    (run_iteration st s s rng).1.history.length = st.history.length + 1 := by
  rw [(run_iteration_state st s s rng).2.1]
  simp

/-- C4 counterexample: on the concrete engine stW, the generation step with
start == end == 0 does not leave the engine state unchanged — its history
differs from the prior history — refuting the claimed fail-fast behavior. -/
theorem C4_counterexample :
    (run_iteration stW 0 0 [0, 0]).1.history ≠ stW.history := by
  intro hcontra
  have hlen := congrArg List.length hcontra
  rw [(run_iteration_state stW 0 0 [0, 0]).2.1] at hlen
  simp at hlen

/-- C5 (amended): engine construction performs no validation: for every
distance matrix, including matrices with fewer than 3 rows or non-square
ones, it produces an engine with num_cities equal to the number of rows,
all-one pheromones, no best tour, infinite best distance, empty history. -/
theorem C5_init_no_validation (dm : List (List ℚ)) (na a b : ℕ) (rho Q : ℚ) :
    (mkACO dm na a b rho Q).numCities = dm.length ∧
    (∀ i j, (mkACO dm na a b rho Q).pheromones i j = 1) ∧
    (mkACO dm na a b rho Q).bestTour = none ∧
    (mkACO dm na a b rho Q).bestDistance = ⊤ ∧
    (mkACO dm na a b rho Q).history = [] :=
  ⟨rfl, fun _ _ => rfl, rfl, rfl, rfl⟩

/-- C5 counterexample: construction succeeds — producing an engine instead
of failing with InvalidInput — on a 1×1 matrix (N = 1 < 3) and on a
non-square matrix. -/
theorem C5_counterexample :
    (mkACO [[0]] 1 1 1 (1/2) 100).numCities = 1 ∧
    (mkACO [[0, 1], [2]] 1 1 1 (1/2) 100).numCities = 2 :=
  ⟨rfl, rfl⟩

/-- C9: determinism — the draw stream is the engine's only source of
randomness (a fixed numpy seed fixes the stream), so two runs of the same
number of generations from engines built with the same matrix and
parameters and fed equal streams produce identical best-distance
histories. -/
theorem C9_determinism (dm : List (List ℚ)) (na a b : ℕ) (rho Q : ℚ)
    (s e k : ℕ) (rng₁ rng₂ : List ℚ) (h : rng₁ = rng₂) :
    (runK s e k (mkACO dm na a b rho Q) rng₁).1.history
      = (runK s e k (mkACO dm na a b rho Q) rng₂).1.history := by
  rw [h]

/-- C9 witness: equal draw streams on the concrete parameters of stW give
equal two-generation histories. -/
theorem C9_determinism_witness :
    ([0, 0] : List ℚ) = [0, 0] ∧
    (runK 0 2 2 (mkACO [[0, 1, 2], [1, 0, 3], [2, 3, 0]] 1 1 1 (1/2) 100)
        [0, 0]).1.history
      = (runK 0 2 2 (mkACO [[0, 1, 2], [1, 0, 3], [2, 3, 0]] 1 1 1 (1/2) 100)
        [0, 0]).1.history :=
  ⟨rfl, C9_determinism [[0, 1, 2], [1, 0, 3], [2, 3, 0]] 1 1 1 (1/2) 100
    0 2 2 [0, 0] [0, 0] rfl⟩

lemma consecPairs_mem :
    ∀ (l : List ℕ), l.Nodup → ∀ p ∈ consecPairs l,
      p.1 ≠ p.2 ∧ p.1 ∈ l ∧ p.2 ∈ l := by
  intro l
  induction l with
  | nil =>
    intro _ p hp
    simp [consecPairs] at hp
  | cons a tl ih =>
    intro hnd p hp
    cases tl with
    | nil => simp [consecPairs] at hp
    | cons b tl2 =>
      simp only [consecPairs, List.tail_cons, List.zip_cons_cons] at hp
      rcases List.mem_cons.1 hp with hpa | hptl
      · subst hpa
        refine ⟨?_, by simp, by simp⟩
        intro hab
        have hab2 : a = b := hab
        rw [List.nodup_cons] at hnd
        exact hnd.1 (by rw [hab2]; exact List.mem_cons_self _ _)
      · have hnd2 : (b :: tl2).Nodup := (List.nodup_cons.1 hnd).2
        have hrec := ih hnd2 p (by simpa [consecPairs] using hptl)
        exact ⟨hrec.1, List.mem_cons_of_mem _ hrec.2.1,
          List.mem_cons_of_mem _ hrec.2.2⟩

lemma calculate_distance_pos (st : ACO) (tour : List ℕ)
    (hlen : 2 ≤ tour.length) (hnd : tour.Nodup)
    (hbound : ∀ c ∈ tour, c < st.numCities)
    (hd : ∀ i j, i < st.numCities → j < st.numCities → i ≠ j →
      0 < entryD st i j) :
    0 < calculate_distance st tour := by
  unfold calculate_distance
  apply List.sum_pos
  · intro x hx
    obtain ⟨p, hp, hpx⟩ := List.mem_map.1 hx
    obtain ⟨hpne, h1, h2⟩ := consecPairs_mem tour hnd p hp
    rw [← hpx]
    exact hd p.1 p.2 (hbound _ h1) (hbound _ h2) hpne
  · intro hnil
    rw [List.map_eq_nil] at hnil
    have hlz : (consecPairs tour).length = min tour.length tour.tail.length := by
      simp [consecPairs]
    rw [hnil] at hlz
    simp only [List.length_nil, List.length_tail] at hlz
    omega

lemma construct_solution_tour_facts (st : ACO) (s e : ℕ) (rng : List ℚ)
    (hs : s < st.numCities) (he : e < st.numCities) (hne : s ≠ e) :
    (construct_solution st s e rng).1.Nodup ∧
    2 ≤ (construct_solution st s e rng).1.length ∧
    ∀ c ∈ (construct_solution st s e rng).1, c < st.numCities := by
  have hperm := (construct_solution_spec st s e rng hs he hne).1
  refine ⟨hperm.nodup_iff.2 (List.nodup_range _), ?_, ?_⟩
  · rw [hperm.length_eq, List.length_range]
    omega
  · intro c hc
    exact List.mem_range.1 (hperm.subset hc)

lemma antLoop_tours_pos (st : ACO) (s e : ℕ)
    (hs : s < st.numCities) (he : e < st.numCities) (hne : s ≠ e)
    (hd : ∀ i j, i < st.numCities → j < st.numCities → i ≠ j →
      0 < entryD st i j) :
    ∀ (n : ℕ) (tours : List (List ℕ × ℚ)) (bt : Option (List ℕ))
      (bd : WithTop ℚ) (rng : List ℚ),
      (∀ td ∈ tours, 0 < td.2) →
      ∀ td ∈ (antLoop st s e n tours bt bd rng).1, 0 < td.2 := by
  intro n
  induction n with
  | zero =>
    intro tours bt bd rng hacc td htd
    exact hacc td htd
  | succ n ih =>
    intro tours bt bd rng hacc td htd
    rw [antLoop_succ] at htd
    have hpos : 0 < calculate_distance st (construct_solution st s e rng).1 := by
      obtain ⟨hnd, hlen, hbound⟩ := construct_solution_tour_facts st s e rng hs he hne
      exact calculate_distance_pos st _ hlen hnd hbound hd
    have hacc2 : ∀ td2 ∈ tours ++ [((construct_solution st s e rng).1,
        calculate_distance st (construct_solution st s e rng).1)], 0 < td2.2 := by
      intro td2 htd2
      rcases List.mem_append.1 htd2 with h | h
      · exact hacc td2 h
      · rw [List.mem_singleton.1 h]
        exact hpos
    by_cases hlt : ((calculate_distance st (construct_solution st s e rng).1 : ℚ)
        : WithTop ℚ) < bd
    · rw [if_pos hlt] at htd
      exact ih _ _ _ _ hacc2 td htd
    · rw [if_neg hlt] at htd
      exact ih _ _ _ _ hacc2 td htd

lemma update_pheromones_formula (st : ACO) (tours : List (List ℕ × ℚ)) :
    ∀ i j, (update_pheromones st tours).pheromones i j
      = st.pheromones i j * (1 - st.evaporationRate) + depositSum st.Q tours i j := by
  intro i j
  unfold update_pheromones
  simp only
  rw [depositAll_apply]

lemma update_pheromones_preserves (st : ACO) (tours : List (List ℕ × ℚ))
    (hsym : ∀ i j, st.pheromones i j = st.pheromones j i)
    (hnn : ∀ i j, 0 ≤ st.pheromones i j)
    (hrho : st.evaporationRate ≤ 1) (hQ : 0 ≤ st.Q)
    (htours : ∀ td ∈ tours, 0 < td.2) :
    (∀ i j, (update_pheromones st tours).pheromones i j
      = (update_pheromones st tours).pheromones j i) ∧
    (∀ i j, 0 ≤ (update_pheromones st tours).pheromones i j) := by
  have hds_sym : ∀ i j, depositSum st.Q tours i j = depositSum st.Q tours j i := by
    intro i j
    unfold depositSum
    congr 1
    apply List.map_congr_left
    intro td _
    ring
  have hds_nn : ∀ i j, 0 ≤ depositSum st.Q tours i j := by
    intro i j
    apply List.sum_nonneg
    intro x hx
    obtain ⟨td, htd, hxe⟩ := List.mem_map.1 hx
    rw [← hxe]
    exact mul_nonneg (div_nonneg hQ (le_of_lt (htours td htd))) (by positivity)
  constructor
  · intro i j
    rw [update_pheromones_formula st tours i j, update_pheromones_formula st tours j i,
      hsym i j, hds_sym i j]
  · intro i j
    rw [update_pheromones_formula st tours i j]
    have hev : 0 ≤ st.pheromones i j * (1 - st.evaporationRate) :=
      mul_nonneg (hnn i j) (by linarith)
    linarith [hds_nn i j]

lemma runK_pheromone_invariant (s e : ℕ) (dm : List (List ℚ)) :
    ∀ (k : ℕ) (st : ACO) (rng : List ℚ),
      st.distanceMatrix = dm → st.numCities = dm.length →
      st.evaporationRate ≤ 1 → 0 ≤ st.Q →
      s < dm.length → e < dm.length → s ≠ e →
      (∀ i j, i < dm.length → j < dm.length → i ≠ j →
        0 < (dm.getD i []).getD j 0) →
      (∀ i j, st.pheromones i j = st.pheromones j i) →
      (∀ i j, 0 ≤ st.pheromones i j) →
      (∀ i j, (runK s e k st rng).1.pheromones i j
        = (runK s e k st rng).1.pheromones j i) ∧
      (∀ i j, 0 ≤ (runK s e k st rng).1.pheromones i j) := by
  intro k
  induction k with
  | zero =>
    intro st rng _ _ _ _ _ _ _ _ hsym hnn
    exact ⟨hsym, hnn⟩
  | succ n ih =>
    intro st rng hdm hN hrho hQ hs he hne hd hsym hnn
    have hdSt : ∀ i j, i < st.numCities → j < st.numCities → i ≠ j →
        0 < entryD st i j := by
      intro i j hi hj hij
      unfold entryD
      rw [hdm]
      exact hd i j (hN ▸ hi) (hN ▸ hj) hij
    have htours : ∀ td ∈ (antLoop st s e st.numAnts [] st.bestTour
        st.bestDistance rng).1, 0 < td.2 :=
      antLoop_tours_pos st s e (hN ▸ hs) (hN ▸ he) hne hdSt
        st.numAnts [] st.bestTour st.bestDistance rng (by simp)
    have hstep := update_pheromones_preserves
      { st with
          bestTour := (antLoop st s e st.numAnts [] st.bestTour st.bestDistance rng).2.1
          bestDistance := (antLoop st s e st.numAnts [] st.bestTour st.bestDistance rng).2.2.1 }
      (antLoop st s e st.numAnts [] st.bestTour st.bestDistance rng).1
      hsym hnn hrho hQ htours
    have hrunk : runK s e (n + 1) st rng
        = runK s e n (run_iteration st s e rng).1 (run_iteration st s e rng).2.1 := rfl
    rw [hrunk]
    exact ih (run_iteration st s e rng).1 (run_iteration st s e rng).2.1
      ((run_iteration_state st s e rng).2.2.1.trans hdm)
      ((run_iteration_state st s e rng).2.2.2.1.trans hN)
      (by rw [(run_iteration_state st s e rng).2.2.2.2.2.2.2.1]; exact hrho)
      (by rw [(run_iteration_state st s e rng).2.2.2.2.2.2.2.2]; exact hQ)
      hs he hne hd hstep.1 hstep.2

/-- C3: starting from the all-one pheromone initialization, with the
evaporation rate at most 1, a nonnegative deposit factor Q, valid distinct
endpoints and strictly positive off-diagonal distances (which make every
tour distance handed to the pheromone update strictly positive), the
pheromone matrix stays symmetric and every entry stays nonnegative after
any number of run_iteration calls. -/
theorem C3_pheromones_symmetric_nonneg (dm : List (List ℚ)) (na a b : ℕ)
    (rho Q : ℚ) (s e k : ℕ) (rng : List ℚ)
    (hrho : rho ≤ 1) (hQ : 0 ≤ Q)
    (hs : s < dm.length) (he : e < dm.length) (hne : s ≠ e)
    (hd : ∀ i j, i < dm.length → j < dm.length → i ≠ j →
      0 < (dm.getD i []).getD j 0) :
    (∀ i j, (runK s e k (mkACO dm na a b rho Q) rng).1.pheromones i j
      = (runK s e k (mkACO dm na a b rho Q) rng).1.pheromones j i) ∧
    (∀ i j, 0 ≤ (runK s e k (mkACO dm na a b rho Q) rng).1.pheromones i j) :=
  runK_pheromone_invariant s e dm k (mkACO dm na a b rho Q) rng rfl rfl
    hrho hQ hs he hne hd (fun _ _ => rfl) (fun _ _ => zero_le_one)

/-- C3 witness: the invariant instantiated on the concrete 3-city matrix
with evaporation rate 1, Q = 100, endpoints 0 and 2, one generation. -/
theorem C3_pheromones_symmetric_nonneg_witness :
    ((1 : ℚ) ≤ 1 ∧ (0 : ℚ) ≤ 100 ∧ (0 : ℕ) < 3 ∧ (2 : ℕ) < 3 ∧ (0 : ℕ) ≠ 2) ∧
    ((∀ i j, (runK 0 2 1 (mkACO [[0, 1, 2], [1, 0, 3], [2, 3, 0]] 1 1 1 1 100)
        [0]).1.pheromones i j
      = (runK 0 2 1 (mkACO [[0, 1, 2], [1, 0, 3], [2, 3, 0]] 1 1 1 1 100)
        [0]).1.pheromones j i) ∧
    (∀ i j, 0 ≤ (runK 0 2 1 (mkACO [[0, 1, 2], [1, 0, 3], [2, 3, 0]] 1 1 1 1 100)
        [0]).1.pheromones i j)) :=
  ⟨⟨le_refl 1, by simp, by decide, by decide, by decide⟩,
    C3_pheromones_symmetric_nonneg [[0, 1, 2], [1, 0, 3], [2, 3, 0]] 1 1 1 1 100
      0 2 1 [0] (le_refl 1) (by simp) (by decide) (by decide) (by decide)
      (by
        intro i j hi hj hij
        simp only [List.length_cons, List.length_nil] at hi hj
        interval_cases i <;> interval_cases j <;> simp_all)⟩

end ACOSpec
